import Mathlib

/-
Verification development for the prop-extractor tool (tool.py).
The Python source is shallowly embedded: strings are Lean `String`s
(operating on their underlying `List Char`), Python sets are modelled as
duplicate-free lists or `Finset String`, dictionaries as association
lists, and the filesystem as an explicit `FileIndex` structure.
Python's `str.lower` is modelled by ASCII `Char.toLower` (all paths and
keys handled by the tool are ASCII).
-/

namespace PropExtract

/-- Python str.lower (ASCII case mapping). -/
def sLower (s : String) : String := ⟨s.data.map Char.toLower⟩

/-- Python whitespace class for str.strip and the regex class \s. -/
def isPySpace (c : Char) : Bool :=
  c = ' ' || c = '\t' || c = '\n' || c = '\r' || c = '\x0b' || c = '\x0c'

/-- Python str.strip(). -/
def sStrip (s : String) : String :=
  ⟨((s.data.dropWhile isPySpace).reverse.dropWhile isPySpace).reverse⟩

/-- Python str.startswith. -/
def sStartsWith (s pre : String) : Bool := pre.data.isPrefixOf s.data

/-- Python str.endswith. -/
def sEndsWith (s suf : String) : Bool := suf.data.isSuffixOf s.data

/-- Python substring containment (`sub in s`). -/
def containsSub : List Char → List Char → Bool
  | [], sub => sub.isEmpty
  | c :: rest, sub => sub.isPrefixOf (c :: rest) || containsSub rest sub

def sContains (s sub : String) : Bool := containsSub s.data sub.data

/-- Python str.replace (all, left to right, non-overlapping); fuelled so
that it is structurally recursive.  The fuel is always instantiated with
the length of the subject, which suffices because each step consumes at
least one character of the subject. -/
def replaceAllF (pat rep : List Char) : Nat → List Char → List Char
  | _, [] => []
  | 0, l => l
  | fuel + 1, c :: rest =>
    if pat.isPrefixOf (c :: rest) && !pat.isEmpty then
      rep ++ replaceAllF pat rep fuel ((c :: rest).drop pat.length)
    else
      c :: replaceAllF pat rep fuel rest

def sReplace (s pat rep : String) : String :=
  ⟨replaceAllF pat.data rep.data s.data.length s.data⟩

/-- Python int() on a digit string. -/
def digitsToNat (l : List Char) : Nat := l.foldl (fun n c => n * 10 + (c.toNat - 48)) 0

/-- str.split-like: split a char list at every occurrence of sep. -/
def splitChar (sep : Char) : List Char → List (List Char)
  | [] => [[]]
  | c :: rest =>
    match splitChar sep rest with
    | [] => [[]]
    | g :: gs => if c = sep then [] :: g :: gs else (c :: g) :: gs

/-- Last path segment of a posix-style relative path (pathlib .name). -/
def lastSlashSeg (s : String) : List Char :=
  match (splitChar '/' s.data).getLast? with
  | some seg => seg
  | none => []

/-- pathlib Path(...).stem: final component minus its suffix; the suffix
is name[i:] for i the last dot index when 0 < i < len(name) - 0 chars
remain after it, otherwise empty. -/
def pathStem (s : String) : String :=
  let name := lastSlashSeg s
  let tail := name.reverse.takeWhile (fun c => !(c = '.'))
  if tail.length = name.length then ⟨name⟩
  else
    let i := name.length - tail.length - 1
    if 0 < i ∧ 0 < tail.length then ⟨name.take i⟩ else ⟨name⟩

/-- pathlib Path(rel).parent.parts for a clean posix relative path:
all segments but the last, with empty and "." segments normalized away. -/
def parentParts (rel : String) : List String :=
  (((splitChar '/' rel.data).dropLast).filter
      (fun seg => !(seg.isEmpty || seg = ['.']))).map (fun l => (⟨l⟩ : String))

/-- Set-like append used to model Python set.add on an insertion-ordered
duplicate-free list. -/
def addSet (l : List String) (a : String) : List String :=
  if a ∈ l then l else l ++ [a]

-- -------------------- Config / Heuristics (tool.py lines 24-57) --------------------

def MODEL_SIDE_EXTS : List String :=
  [".mdl", ".vvd", ".phy", ".ani", ".vtx", ".dx80.vtx", ".dx90.vtx", ".sw.vtx"]

def VMT_TEXTURE_KEYS : List String :=
  ["basetexture", "basetexture2", "bumpmap", "normalmap", "phongalbedotint",
   "phongexponenttexture", "selfillumtint", "lightwarptexture", "detail",
   "envmapmask", "ambientoccltexture", "blendmodulatetexture", "albedo",
   "heightmap", "mraotexture", "roughnesstexture", "metalictexture"]

def VMT_INCLUDE_KEYS : List String := ["include"]

-- -------------------- VMT pair extraction (_parse_vmt_pairs) --------------------

/-- Character class [a-z0-9_] under re.IGNORECASE. -/
def isKeyChar (c : Char) : Bool := c.isAlphanum || c = '_'

/-- Truncate one line at its first "//" (re.sub(r"//.*?$", "", text, MULTILINE)). -/
def dropComment : List Char → List Char
  | [] => []
  | c :: rest =>
    if ('/' = c && ['/'].isPrefixOf rest) then [] else c :: dropComment rest

def stripLineComments (text : String) : String :=
  ⟨List.intercalate ['\n'] ((splitChar '\n' text.data).map dropComment)⟩

/-- Match the regex  "\$?([a-z0-9_]+)"\s*"([^"]+)"  at the head of the input.
Returns (key, value, rest-after-match). -/
def matchQuoted (l : List Char) : Option (List Char × List Char × List Char) :=
  match l with
  | '"' :: rest =>
    let rest1 := if rest.head? = some '$' then rest.tail else rest
    let key := rest1.takeWhile isKeyChar
    if key.isEmpty then none else
    match rest1.drop key.length with
    | '"' :: rest2 =>
      let rest3 := rest2.dropWhile isPySpace
      match rest3 with
      | '"' :: rest4 =>
        let val := rest4.takeWhile (fun c => !(c = '"'))
        if val.isEmpty then none else
        match rest4.drop val.length with
        | '"' :: rest5 => some (key, val, rest5)
        | _ => none
      | _ => none
    | _ => none
  | _ => none

/-- Match the regex  \$([a-z0-9_]+)\s+([^\s"}]+)  at the head of the input. -/
def matchDollar (l : List Char) : Option (List Char × List Char × List Char) :=
  match l with
  | '$' :: rest =>
    let key := rest.takeWhile isKeyChar
    if key.isEmpty then none else
    let after := rest.drop key.length
    let sp := after.takeWhile isPySpace
    if sp.isEmpty then none else
    let after2 := after.drop sp.length
    let val := after2.takeWhile (fun c => !(isPySpace c || c = '"' || c = '\x7d'))
    if val.isEmpty then none else
    some (key, val, after2.drop val.length)
  | _ => none

/-- re.findall semantics: scan left to right, at each position try the
matcher; on success record the groups and resume after the match, else
advance one character.  Fuelled with the input length (each step consumes
at least one character). -/
def findPairsAux (matchFn : List Char → Option (List Char × List Char × List Char)) :
    Nat → List Char → List (List Char × List Char)
  | _, [] => []
  | 0, _ => []
  | fuel + 1, c :: rest =>
    match matchFn (c :: rest) with
    | some (k, v, rest2) => (k, v) :: findPairsAux matchFn fuel rest2
    | none => findPairsAux matchFn fuel rest

/-- tool.py _parse_vmt_pairs: strip line comments, then concatenate the
matches of the quoted-pair regex and of the $key value regex. -/
def parse_vmt_pairs (text : String) : List (String × String) :=
  let t := (stripLineComments text).data
  ((findPairsAux matchQuoted t.length t) ++ (findPairsAux matchDollar t.length t)).map
    (fun kv => ((⟨kv.1⟩ : String), (⟨kv.2⟩ : String)))

-- -------------------- Normalization (tool.py _norm_to_materials) --------------------

def norm_to_materials (p : String) (ext : String) : String :=
  let p1 := sLower (sStrip (sReplace p "\\" "/"))
  let p2 := if sEndsWith p1 ext then p1 else p1 ++ ext
  if sStartsWith p2 "materials/" then p2 else "materials/" ++ p2

/-- The per-pair body of parse_vmt_for_dependencies: texture keys add a
".vtf"-normalized value, the include key a ".vmt"-normalized one. -/
def pvStep (acc : List String × List String) (kv : String × String) :
    List String × List String :=
  let lk := sLower kv.1
  if lk ∈ VMT_TEXTURE_KEYS then (addSet acc.1 (norm_to_materials kv.2 ".vtf"), acc.2)
  else if lk ∈ VMT_INCLUDE_KEYS then (acc.1, addSet acc.2 (norm_to_materials kv.2 ".vmt"))
  else acc

/-- tool.py parse_vmt_for_dependencies: returns (vtf paths, include vmts),
Python sets modelled as insertion-ordered duplicate-free lists. -/
def parse_vmt_for_dependencies (vmt_text : String) : List String × List String :=
  (parse_vmt_pairs vmt_text).foldl pvStep ([], [])

-- -------------------- Model scanner (tool.py scan_mdl_for_material_candidates) ------

/-- The regex byte class [A-Za-z0-9_\-\/\\\.]. -/
def isPathChar (c : Char) : Bool :=
  c.isAlphanum || c = '_' || c = '-' || c = '/' || c = '\\' || c = '.'

/-- Accumulator pass splitting a char list into the maximal runs of
characters satisfying p (cur holds the current run reversed). -/
def runsAux (p : Char → Bool) : List Char → List Char → List (List Char)
  | cur, [] => if cur.isEmpty then [] else [cur.reverse]
  | cur, c :: l =>
    if p c then runsAux p (c :: cur) l
    else if cur.isEmpty then runsAux p [] l else cur.reverse :: runsAux p [] l

def splitRuns (p : Char → Bool) (l : List Char) : List (List Char) := runsAux p [] l

/-- The maximal runs of 4 or more path characters: re.finditer of
([A-Za-z0-9_\-\/\\\.]{4,}). -/
def pathTokens (l : List Char) : List (List Char) :=
  (splitRuns isPathChar l).filter (fun t => 4 ≤ t.length)

/-- The per-token candidate logic of scan_mdl_for_material_candidates
(decode of a class-only token is the identity, so only the
backslash-to-slash replacement is applied). -/
def candOf (t : List Char) : Option String :=
  let token := t.map (fun c => if c = '\\' then '/' else c)
  if !(token.contains '/') then none
  else
    let tl := token.map Char.toLower
    if (".vmt".data.isSuffixOf tl) then
      some (if "materials/".data.isPrefixOf tl then (⟨tl⟩ : String) else ("materials/" ++ ⟨tl⟩))
    else if containsSub tl "models/".data || containsSub tl "materials/".data then
      let tt := if "materials/".data.isPrefixOf tl then tl.drop ("materials/".data.length) else tl
      some ("materials/" ++ (⟨tt⟩ : String) ++ ".vmt")
    else none

/-- Accumulate one token's candidate, if any. -/
def scanStep (acc : List String) (t : List Char) : List String :=
  match candOf t with
  | some q => addSet acc q
  | none => acc

/-- tool.py scan_mdl_for_material_candidates; the byte stream is modelled
as a list of chars (every matched token consists of ASCII class bytes, on
which the permissive decode is the identity), the result set as an
insertion-ordered duplicate-free list. -/
def scan_mdl_for_material_candidates (mdl_bytes : List Char) : List String :=
  (pathTokens mdl_bytes).foldl scanStep []

-- -------------------- File index and VMT resolution --------------------

/-- The data produced by build_file_index together with the (read-only)
file contents: lc_map maps a lower-cased relative path to the real
relative path, files maps a real relative path to that file's contents
(absent entries model both missing files and read failures). -/
structure FileIndex where
  all_files : List String
  lc_map : List (String × String)
  files : List (String × String)
deriving DecidableEq

/-- Resolution of a (lower-cased) VMT path in collect_vmt_and_vtf:
direct lookup, then the "materials/materials/" collapse fallback. -/
def resolveVmt (fs : FileIndex) (vmt_rel : String) : Option String :=
  match fs.lc_map.lookup vmt_rel with
  | some r => some r
  | none => fs.lc_map.lookup (sReplace vmt_rel "materials/materials/" "materials/")

/-- The include VMTs pushed onto the worklist when a VMT is processed:
empty when it does not resolve or cannot be read. -/
def vmtIncludes (fs : FileIndex) (x : String) : List String :=
  match resolveVmt fs x with
  | none => []
  | some r =>
    match fs.files.lookup r with
    | none => []
    | some text => (parse_vmt_for_dependencies text).2

/-- The textures collected when a VMT is processed (lower-cased, as in
`vtfs.update(v.lower() ...)`). -/
def vmtTextures (fs : FileIndex) (x : String) : List String :=
  match resolveVmt fs x with
  | none => []
  | some r =>
    match fs.files.lookup r with
    | none => []
    | some text => ((parse_vmt_for_dependencies text).1).map sLower

-- -------------------- The include-chain worklist (collect_vmt_and_vtf) -------------

/-- One fuelled run of the while-loop of collect_vmt_and_vtf: pop a
worklist entry; skip it if seen; otherwise mark it seen, collect its
textures and push its not-yet-seen includes.  The worklist is kept in
reverse: Python pops and appends at the end, here at the head (the
order-independence theorem below shows the processing order does not
affect the result).  `none` means the fuel ran out (a fuel bound
sufficient for termination is proved below). -/
def collectLoopF (fs : FileIndex) :
    Nat → List String → Finset String → Finset String →
    Option (Finset String × Finset String)
  | _, [], seen, vtfs => some (seen, vtfs)
  | 0, _ :: _, _, _ => none
  | fuel + 1, x :: rest, seen, vtfs =>
    if x ∈ seen then
      collectLoopF fs fuel rest seen vtfs
    else
      collectLoopF fs fuel
        (((vmtIncludes fs x).filter (fun inc => decide (inc ∉ insert x seen))).reverse ++ rest)
        (insert x seen) (vtfs ∪ (vmtTextures fs x).toFinset)

/-- All include paths that any file of the index can ever push. -/
def allIncs (fs : FileIndex) : List String :=
  (fs.lc_map.map Prod.snd).flatMap
    (fun r =>
      match fs.files.lookup r with
      | none => []
      | some text => (parse_vmt_for_dependencies text).2)

/-- A fuel amount sufficient for collectLoopF to finish from worklist tv
(proved below). -/
def collectFuel (fs : FileIndex) (tv : List String) : Nat :=
  (tv.toFinset ∪ (allIncs fs).toFinset).card * ((allIncs fs).length + 1) + tv.length + 1

/-- collect_vmt_and_vtf with an explicit linearization `ord` of the
initial worklist, modelling the unspecified iteration order of
`list(set(s.lower() for s in start_vmts))`. -/
def collect_vmt_and_vtf_ord (fs : FileIndex) (ord : List String → List String)
    (start_vmts : List String) : Finset String × Finset String :=
  let tv := (ord ((start_vmts.map sLower).dedup)).reverse
  (collectLoopF fs (collectFuel fs tv) tv ∅ ∅).getD (∅, ∅)

/-- tool.py collect_vmt_and_vtf with the canonical worklist order. -/
def collect_vmt_and_vtf (fs : FileIndex) (start_vmts : List String) :
    Finset String × Finset String :=
  collect_vmt_and_vtf_ord fs id start_vmts

-- -------------------- Dependency gather for a model (gather_deps_for_model) --------

/-- tool.py siblings_with_same_stem. -/
def siblings_with_same_stem (rel_mdl : String) : List String :=
  let stem :=
    if sEndsWith (sLower rel_mdl) ".mdl" then (⟨rel_mdl.data.take (rel_mdl.data.length - 4)⟩ : String)
    else rel_mdl
  rel_mdl :: MODEL_SIDE_EXTS.map (fun ext => stem ++ ext)

/-- One sidecar candidate check: the key is the candidate with
backslashes normalized and lower-cased, added when present in lc_map. -/
def mfStep (fs : FileIndex) (acc : Finset String) (candidate : String) : Finset String :=
  match fs.lc_map.lookup (sLower (sReplace candidate "\\" "/")) with
  | some v => insert v acc
  | none => acc

/-- The sidecar files that exist in the index (first block of
gather_deps_for_model). -/
def modelFilesOf (fs : FileIndex) (rel_mdl : String) : Finset String :=
  (siblings_with_same_stem rel_mdl).foldl (mfStep fs) ∅

/-- The candidates obtained by scanning the model's bytes (the try block
of gather_deps_for_model; a failed index lookup or read yields none, as
the caught exception does). -/
def scanCandidates (fs : FileIndex) (rel_mdl : String) : List String :=
  match fs.lc_map.lookup (sLower rel_mdl) with
  | none => []
  | some real =>
    match fs.files.lookup real with
    | none => []
    | some mdl_bytes => scan_mdl_for_material_candidates mdl_bytes.data

/-- The folder/basename heuristic candidates (skipped entirely when the
model path has no containing folder). -/
def folderCandidates (fs : FileIndex) (rel_mdl : String) : List String :=
  if parentParts rel_mdl = [] then []
  else
    let folder_hint := sLower (String.intercalate "/" (parentParts rel_mdl))
    let base_hint := sLower (pathStem rel_mdl)
    ("materials/" ++ folder_hint ++ "/" ++ base_hint ++ ".vmt") ::
      (fs.all_files.filterMap (fun f =>
        let fl := sLower f
        if sEndsWith fl ".vmt" && sContains (pathStem fl) base_hint && sContains fl folder_hint
        then some fl else none))

/-- The full candidate set (a Python set: duplicate-free). -/
def vmtCandidates (fs : FileIndex) (rel_mdl : String) : List String :=
  (scanCandidates fs rel_mdl ++ folderCandidates fs rel_mdl).dedup

/-- The set comprehension filtering candidates to those that exist:
  \x7b lc_map[v.lower()] for v in vmt_candidates if v.lower() in lc_map \x7d . -/
def existingVmts (fs : FileIndex) (rel_mdl : String) : List String :=
  ((vmtCandidates fs rel_mdl).filterMap (fun v => fs.lc_map.lookup (sLower v))).dedup

/-- tool.py gather_deps_for_model, parametrized by the worklist
linearization (see collect_vmt_and_vtf_ord). -/
def gather_deps_ord (fs : FileIndex) (ord : List String → List String) (rel_mdl : String) :
    Finset String × Finset String × Finset String :=
  let mv := collect_vmt_and_vtf_ord fs ord (existingVmts fs rel_mdl)
  (modelFilesOf fs rel_mdl, mv.1, mv.2)

/-- tool.py gather_deps_for_model with the canonical worklist order. -/
def gather_deps_for_model (fs : FileIndex) (rel_mdl : String) :
    Finset String × Finset String × Finset String :=
  gather_deps_ord fs id rel_mdl

-- -------------------- Export naming (tool.py next_export_number) -------------------

/-- re.fullmatch(r"EXPORTED\s*(\d+)", name, re.IGNORECASE), returning the
matched integer. -/
def matchExported (name : String) : Option Nat :=
  let cs := name.data
  if (cs.take 8).map Char.toLower = "exported".data then
    let rest := cs.drop 8
    let ds := rest.drop (rest.takeWhile isPySpace).length
    if !ds.isEmpty && ds.all Char.isDigit then some (digitsToNat ds) else none
  else none

/-- tool.py next_export_number over the list of directory names at the
pack root. -/
def next_export_number (dirs : List String) : Nat :=
  (dirs.foldl
    (fun max_n name =>
      match matchExported name with
      | some n => max max_n n
      | none => max_n) 0) + 1

/-- tool.py export_name. -/
def export_name (n : Nat) : String := "EXPORTED" ++ toString n

-- -------------------- Selection parsing (tool.py parse_selection) ------------------

/-- The tokens of re.split(r"[,\s]+", spec) with empties discarded:
maximal runs of characters that are neither commas nor whitespace
(such tokens contain no whitespace, so the inner .strip() is the
identity on them). -/
def isSelSep (c : Char) : Bool := c = ',' || isPySpace c

def selTokens (spec : String) : List (List Char) :=
  splitRuns (fun c => !isSelSep c) spec.data

/-- Python str.isdigit on an ASCII token. -/
def isDigits (l : List Char) : Bool := !l.isEmpty && l.all Char.isDigit

/-- The body of the index filter: append i when it is in range and new
(`if 1 <= i <= max_index and i not in seen`). -/
def addIdx (max_index : Nat) (st : Finset Nat × List Nat) (i : Nat) : Finset Nat × List Nat :=
  if 1 ≤ i ∧ i ≤ max_index ∧ i ∉ st.1 then (insert i st.1, st.2 ++ [i]) else st

/-- The range part of the loop body: swap reversed bounds, then walk
range(start, end+1) through the in-range-and-new filter. -/
def applyRange (max_index : Nat) (st : Finset Nat × List Nat) (s0 e0 : Nat) :
    Finset Nat × List Nat :=
  let s := if s0 > e0 then e0 else s0
  let e := if s0 > e0 then s0 else e0
  (List.range' s (e + 1 - s)).foldl (addIdx max_index) st

/-- Processing of one selection token (the loop body of parse_selection). -/
def selTokenStep (max_index : Nat) (st : Finset Nat × List Nat) (t : List Char) :
    Except String (Finset Nat × List Nat) :=
  if t.contains '-' then
    let a := t.takeWhile (fun c => !(c = '-'))
    let b := t.drop (a.length + 1)
    if !(isDigits a && isDigits b) then .error ("Bad range token: " ++ (⟨t⟩ : String))
    else .ok (applyRange max_index st (digitsToNat a) (digitsToNat b))
  else
    if !(isDigits t) then .error ("Bad index token: " ++ (⟨t⟩ : String))
    else .ok (addIdx max_index st (digitsToNat t))

/-- tool.py parse_selection; a raised ValueError is modelled as
Except.error carrying the message. -/
def parse_selection (spec : String) (max_index : Nat) : Except String (List Nat) :=
  let sp := sLower (sStrip spec)
  if sp = "all" ∨ sp = "*" then .ok (List.range' 1 max_index)
  else
    Except.map (fun st => st.2) ((selTokens sp).foldlM (selTokenStep max_index) (∅, []))

-- -------------------- Concrete example indexes -------------------------------------

/-- A pack with a cyclic include chain: a.vmt includes b.vmt and b.vmt
includes a.vmt, each with its own texture. -/
def fsCyc : FileIndex :=
  ⟨["models/m.mdl", "materials/a.vmt", "materials/B.vmt"],
   [("models/m.mdl", "models/m.mdl"), ("materials/a.vmt", "materials/a.vmt"),
    ("materials/b.vmt", "materials/B.vmt")],
   [("models/m.mdl", "materials/a.vmt"),
    ("materials/a.vmt", "\"$basetexture\" \"ta\"\n\"include\" \"b.vmt\""),
    ("materials/B.vmt", "\"$basetexture\" \"tb\"\n\"include\" \"a.vmt\"")]⟩

/-- A pack whose only material references a texture and an include that
do not exist in the index. -/
def fsMissing : FileIndex :=
  ⟨["models/m.mdl", "materials/a.vmt"],
   [("models/m.mdl", "models/m.mdl"), ("materials/a.vmt", "materials/a.vmt")],
   [("models/m.mdl", "materials/a.vmt"),
    ("materials/a.vmt", "\"$basetexture\" \"missing\"\n\"include\" \"nothere.vmt\"")]⟩

/-- A pack for the double-prefix fallback: only materials/x.vmt exists. -/
def fsCollapse : FileIndex :=
  ⟨["materials/x.vmt"],
   [("materials/x.vmt", "materials/x.vmt")],
   [("materials/x.vmt", "\"$basetexture\" \"tx\"")]⟩

-- -------------------- Reachability along include chains ----------------------------

/-- y is reachable from the start set along vmtIncludes edges while
avoiding the blocked (already seen) set: exactly the paths the worklist
of collect_vmt_and_vtf can still explore. -/
inductive ReachVmt (fs : FileIndex) (blocked : Finset String) (start : Finset String) :
    String → Prop
  | base {x : String} : x ∈ start → x ∉ blocked → ReachVmt fs blocked start x
  | step {x y : String} : ReachVmt fs blocked start x → y ∈ vmtIncludes fs x →
      y ∉ blocked → ReachVmt fs blocked start y

theorem reach_empty_start (fs : FileIndex) {blocked : Finset String} {y : String}
    (h : ReachVmt fs blocked ∅ y) : False := by
  induction h with
  | base hmem _ => exact absurd hmem (Finset.not_mem_empty _)
  | step _ _ _ ih => exact ih

/-- Adding an already-blocked element to the start set does not change
reachability: the worklist may drop a seen entry. -/
theorem reach_insert_start_blocked (fs : FileIndex) {blocked S : Finset String}
    {x : String} (hx : x ∈ blocked) (y : String) :
    ReachVmt fs blocked (insert x S) y ↔ ReachVmt fs blocked S y := by
  constructor
  · intro h
    induction h with
    | base hmem hnb =>
      rcases Finset.mem_insert.mp hmem with rfl | hS
      · exact absurd hx hnb
      · exact .base hS hnb
    | step _ hinc hnb ih => exact .step ih hinc hnb
  · intro h
    induction h with
    | base hmem hnb => exact .base (Finset.mem_insert_of_mem hmem) hnb
    | step _ hinc hnb ih => exact .step ih hinc hnb

/-- The main worklist step: processing an unseen x is the same as
blocking x and starting additionally from its not-yet-seen includes. -/
theorem reach_insert_start_unblocked (fs : FileIndex) {blocked S : Finset String}
    {x : String} (hx : x ∉ blocked) (y : String) :
    ReachVmt fs blocked (insert x S) y ↔
      (y = x ∨ ReachVmt fs (insert x blocked)
        (S ∪ (vmtIncludes fs x).toFinset.filter (fun i => i ∉ insert x blocked)) y) := by
  constructor
  · intro h
    induction h with
    | @base z hmem hnb =>
      rcases Finset.mem_insert.mp hmem with rfl | hS
      · exact Or.inl rfl
      · by_cases hzx : z = x
        · exact Or.inl hzx
        · refine Or.inr (.base (Finset.mem_union_left _ hS) ?_)
          intro hc
          rcases Finset.mem_insert.mp hc with rfl | hb
          · exact hzx rfl
          · exact hnb hb
    | @step z y' _ hinc hnb ih =>
      by_cases hyx : y' = x
      · exact Or.inl hyx
      · have hy : y' ∉ insert x blocked := by
          intro hc
          rcases Finset.mem_insert.mp hc with rfl | hb
          · exact hyx rfl
          · exact hnb hb
        rcases ih with rfl | hz
        · refine Or.inr (.base (Finset.mem_union_right _ ?_) hy)
          exact Finset.mem_filter.mpr ⟨List.mem_toFinset.mpr hinc, hy⟩
        · exact Or.inr (.step hz hinc hy)
  · rintro (rfl | h)
    · exact .base (Finset.mem_insert_self _ _) hx
    · induction h with
      | base hmem hnb =>
        have hnb' : _ ∉ blocked := fun hb => hnb (Finset.mem_insert_of_mem hb)
        rcases Finset.mem_union.mp hmem with hS | hF
        · exact .base (Finset.mem_insert_of_mem hS) hnb'
        · obtain ⟨hincL, _⟩ := Finset.mem_filter.mp hF
          exact .step (.base (Finset.mem_insert_self _ _) hx)
            (List.mem_toFinset.mp hincL) hnb'
      | step _ hinc hnb ih =>
        exact .step ih hinc (fun hb => hnb (Finset.mem_insert_of_mem hb))

/-- The final seen/texture sets of any completed run of the worklist
loop, characterized by reachability: the processing order is immaterial
because the right-hand sides depend only on tv.toFinset. -/
theorem collectLoopF_spec (fs : FileIndex) :
    ∀ (n : Nat) (tv : List String) (seen vtfs s v : Finset String),
      collectLoopF fs n tv seen vtfs = some (s, v) →
      ((∀ y, y ∈ s ↔ (y ∈ seen ∨ ReachVmt fs seen tv.toFinset y)) ∧
       (∀ w, w ∈ v ↔ (w ∈ vtfs ∨ ∃ y, ReachVmt fs seen tv.toFinset y ∧ w ∈ vmtTextures fs y))) := by
  intro n
  induction n with
  | zero =>
    intro tv seen vtfs s v h
    cases tv with
    | nil =>
      simp only [collectLoopF, Option.some.injEq, Prod.mk.injEq] at h
      obtain ⟨rfl, rfl⟩ := h
      refine ⟨fun y => ?_, fun w => ?_⟩
      · simp only [List.toFinset_nil]
        exact ⟨fun hy => Or.inl hy,
          fun hy => hy.elim id (fun hr => absurd hr (fun hr => reach_empty_start fs hr))⟩
      · simp only [List.toFinset_nil]
        refine ⟨fun hw => Or.inl hw, fun hw => ?_⟩
        rcases hw with hw | ⟨y, hr, _⟩
        · exact hw
        · exact absurd hr (fun hr => reach_empty_start fs hr)
    | cons a l => exact absurd h (by simp only [collectLoopF]; exact fun hc => Option.noConfusion hc)
  | succ n ih =>
    intro tv seen vtfs s v h
    cases tv with
    | nil =>
      simp only [collectLoopF, Option.some.injEq, Prod.mk.injEq] at h
      obtain ⟨rfl, rfl⟩ := h
      refine ⟨fun y => ?_, fun w => ?_⟩
      · simp only [List.toFinset_nil]
        exact ⟨fun hy => Or.inl hy,
          fun hy => hy.elim id (fun hr => absurd hr (fun hr => reach_empty_start fs hr))⟩
      · simp only [List.toFinset_nil]
        refine ⟨fun hw => Or.inl hw, fun hw => ?_⟩
        rcases hw with hw | ⟨y, hr, _⟩
        · exact hw
        · exact absurd hr (fun hr => reach_empty_start fs hr)
    | cons x rest =>
      by_cases hx : x ∈ seen
      · have h' : collectLoopF fs n rest seen vtfs = some (s, v) := by
          simpa only [collectLoopF, if_pos hx] using h
        obtain ⟨hs, hv⟩ := ih rest seen vtfs s v h'
        refine ⟨fun y => ?_, fun w => ?_⟩
        · rw [hs y, List.toFinset_cons, reach_insert_start_blocked fs hx]
        · rw [hv w, List.toFinset_cons]
          constructor
          · rintro (hw | ⟨y, hr, ht⟩)
            · exact Or.inl hw
            · exact Or.inr ⟨y, (reach_insert_start_blocked fs hx y).mpr hr, ht⟩
          · rintro (hw | ⟨y, hr, ht⟩)
            · exact Or.inl hw
            · exact Or.inr ⟨y, (reach_insert_start_blocked fs hx y).mp hr, ht⟩
      · have h' : collectLoopF fs n
            (((vmtIncludes fs x).filter (fun inc => decide (inc ∉ insert x seen))).reverse ++ rest)
            (insert x seen) (vtfs ∪ (vmtTextures fs x).toFinset) = some (s, v) := by
          simpa only [collectLoopF, if_neg hx] using h
        obtain ⟨hs, hv⟩ := ih _ _ _ s v h'
        have htv : (((vmtIncludes fs x).filter
              (fun inc => decide (inc ∉ insert x seen))).reverse ++ rest).toFinset
            = rest.toFinset ∪ (vmtIncludes fs x).toFinset.filter (fun i => i ∉ insert x seen) := by
          rw [List.toFinset_append, List.toFinset_reverse, List.toFinset_filter]
          rw [Finset.union_comm]
          congr 1
          apply Finset.filter_congr
          intro i _
          simp
        refine ⟨fun y => ?_, fun w => ?_⟩
        · rw [hs y, List.toFinset_cons, reach_insert_start_unblocked fs hx, htv]
          constructor
          · rintro (hy | hr)
            · rcases Finset.mem_insert.mp hy with rfl | hy'
              · exact Or.inr (Or.inl rfl)
              · exact Or.inl hy'
            · exact Or.inr (Or.inr hr)
          · rintro (hy | rfl | hr)
            · exact Or.inl (Finset.mem_insert_of_mem hy)
            · exact Or.inl (Finset.mem_insert_self _ _)
            · exact Or.inr hr
        · rw [hv w, List.toFinset_cons, htv]
          constructor
          · rintro (hw | ⟨y, hr, ht⟩)
            · rcases Finset.mem_union.mp hw with hw' | hw'
              · exact Or.inl hw'
              · refine Or.inr ⟨x, ?_, List.mem_toFinset.mp hw'⟩
                exact (reach_insert_start_unblocked fs hx x).mpr (Or.inl rfl)
            · refine Or.inr ⟨y, ?_, ht⟩
              exact (reach_insert_start_unblocked fs hx y).mpr (Or.inr hr)
          · rintro (hw | ⟨y, hr, ht⟩)
            · exact Or.inl (Finset.mem_union_left _ hw)
            · rcases (reach_insert_start_unblocked fs hx y).mp hr with rfl | hr'
              · exact Or.inl (Finset.mem_union_right _ (List.mem_toFinset.mpr ht))
              · exact Or.inr ⟨y, hr', ht⟩

-- -------------------- Termination of the worklist loop -----------------------------

theorem lookup_mem_values {l : List (String × String)} {k v : String}
    (h : l.lookup k = some v) : v ∈ l.map Prod.snd := by
  induction l with
  | nil => simp [List.lookup] at h
  | cons p rest ih =>
    cases p with
    | mk a b =>
      simp only [List.lookup] at h
      split at h
      · injection h with h'
        subst h'
        simp
      · simpa using Or.inr (ih h)

theorem resolveVmt_mem_values (fs : FileIndex) {x r : String}
    (hr : resolveVmt fs x = some r) : r ∈ fs.lc_map.map Prod.snd := by
  unfold resolveVmt at hr
  rcases h1 : fs.lc_map.lookup x with _ | r'
  · rw [h1] at hr
    exact lookup_mem_values hr
  · rw [h1] at hr
    injection hr with hr'
    subst hr'
    exact lookup_mem_values h1

theorem vmtIncludes_subset_allIncs (fs : FileIndex) (x : String) :
    ∀ y ∈ vmtIncludes fs x, y ∈ allIncs fs := by
  intro y hy
  unfold vmtIncludes at hy
  split at hy
  · simp at hy
  · rename_i r hr
    split at hy
    · simp at hy
    · rename_i text ht
      refine List.mem_flatMap.mpr ⟨r, resolveVmt_mem_values fs hr, ?_⟩
      show y ∈ (match fs.files.lookup r with
        | none => []
        | some text => (parse_vmt_for_dependencies text).2)
      rw [ht]
      exact hy

theorem length_le_flatMap {α β : Type} (g : α → List β) {l : List α} {r : α}
    (h : r ∈ l) : (g r).length ≤ (l.flatMap g).length := by
  induction l with
  | nil => cases h
  | cons a t ih =>
    rw [List.flatMap_cons, List.length_append]
    rcases List.mem_cons.mp h with rfl | hmem
    · exact Nat.le_add_right _ _
    · exact Nat.le_trans (ih hmem) (Nat.le_add_left _ _)

theorem vmtIncludes_length_le (fs : FileIndex) (x : String) :
    (vmtIncludes fs x).length ≤ (allIncs fs).length := by
  unfold vmtIncludes
  split
  · simp
  · rename_i r hr
    have hle := length_le_flatMap
      (fun r => (match fs.files.lookup r with
        | none => []
        | some text => (parse_vmt_for_dependencies text).2))
      (resolveVmt_mem_values fs hr)
    exact hle

/-- Fuel sufficiency: with fuel exceeding (unseen candidates) × (worst
include burst + 1) + worklist length, the loop completes. -/
theorem collectLoopF_isSome (fs : FileIndex) (U : Finset String)
    (hU : ∀ y ∈ allIncs fs, y ∈ U) :
    ∀ (n : Nat) (tv : List String) (seen vtfs : Finset String),
      (∀ x ∈ tv, x ∈ U) →
      (U \ seen).card * ((allIncs fs).length + 1) + tv.length < n →
      (collectLoopF fs n tv seen vtfs).isSome := by
  intro n
  induction n with
  | zero => intro tv seen vtfs _ hlt; exact absurd hlt (Nat.not_lt_zero _)
  | succ n ih =>
    intro tv seen vtfs htv hlt
    cases tv with
    | nil => simp [collectLoopF]
    | cons x rest =>
      by_cases hx : x ∈ seen
      · rw [collectLoopF, if_pos hx]
        refine ih rest seen vtfs (fun z hz => htv z (List.mem_cons_of_mem _ hz)) ?_
        have : (U \ seen).card * ((allIncs fs).length + 1) + (rest.length + 1) < n + 1 := by
          simpa [List.length_cons] using hlt
        omega
      · rw [collectLoopF, if_neg hx]
        have hxU : x ∈ U := htv x (List.mem_cons_self x rest)
        have hxdiff : x ∈ U \ seen := Finset.mem_sdiff.mpr ⟨hxU, hx⟩
        have hcard : (U \ insert x seen).card = (U \ seen).card - 1 := by
          have hset : U \ insert x seen = (U \ seen).erase x := by
            ext z
            simp only [Finset.mem_sdiff, Finset.mem_insert, Finset.mem_erase]
            constructor
            · rintro ⟨hzU, hz⟩
              exact ⟨fun hzx => hz (Or.inl hzx), hzU, fun hzs => hz (Or.inr hzs)⟩
            · rintro ⟨hzx, hzU, hzs⟩
              exact ⟨hzU, fun hc => hc.elim hzx hzs⟩
          rw [hset, Finset.card_erase_of_mem hxdiff]
        have hcpos : 1 ≤ (U \ seen).card := Finset.card_pos.mpr ⟨x, hxdiff⟩
        refine ih _ _ _ ?_ ?_
        · intro z hz
          rcases List.mem_append.mp hz with hz1 | hz2
          · have hz1' := List.mem_reverse.mp hz1
            have := List.mem_filter.mp hz1'
            exact hU z (vmtIncludes_subset_allIncs fs x z this.1)
          · exact htv z (List.mem_cons_of_mem _ hz2)
        · set L := (allIncs fs).length with hL
          have hfl : (((vmtIncludes fs x).filter
                (fun inc => decide (inc ∉ insert x seen))).reverse ++ rest).length
              ≤ L + rest.length := by
            rw [List.length_append, List.length_reverse]
            have h1 : ((vmtIncludes fs x).filter
                (fun inc => decide (inc ∉ insert x seen))).length ≤ (vmtIncludes fs x).length :=
              List.length_filter_le _ _
            have h2 := vmtIncludes_length_le fs x
            omega
          rw [hcard]
          have hc' : (U \ seen).card = ((U \ seen).card - 1) + 1 := by omega
          have hexp : (U \ seen).card * (L + 1)
              = ((U \ seen).card - 1) * (L + 1) + (L + 1) := by
            calc (U \ seen).card * (L + 1)
                = (((U \ seen).card - 1) + 1) * (L + 1) := by rw [← hc']
              _ = ((U \ seen).card - 1) * (L + 1) + (L + 1) := by ring
          rw [hexp] at hlt
          have hlt' : ((U \ seen).card - 1) * (L + 1) + (L + 1) + (rest.length + 1) < n + 1 := by
            simpa [List.length_cons] using hlt
          omega

theorem dedup_toFinset (l : List String) : l.dedup.toFinset = l.toFinset := by
  ext a
  simp [List.mem_dedup]

/-- The loop inside collect_vmt_and_vtf_ord never runs out of fuel: the
traversal terminates (visited-set guard), on every include graph. -/
theorem collect_vmt_and_vtf_ord_eq (fs : FileIndex) (ord : List String → List String)
    (start_vmts : List String) :
    collectLoopF fs (collectFuel fs ((ord ((start_vmts.map sLower).dedup)).reverse))
        ((ord ((start_vmts.map sLower).dedup)).reverse) ∅ ∅
      = some (collect_vmt_and_vtf_ord fs ord start_vmts) := by
  set tv := (ord ((start_vmts.map sLower).dedup)).reverse with htv
  have hsome : (collectLoopF fs (collectFuel fs tv) tv ∅ ∅).isSome := by
    refine collectLoopF_isSome fs (tv.toFinset ∪ (allIncs fs).toFinset)
      (fun y hy => Finset.mem_union_right _ (List.mem_toFinset.mpr hy))
      (collectFuel fs tv) tv ∅ ∅
      (fun x hx => Finset.mem_union_left _ (List.mem_toFinset.mpr hx)) ?_
    rw [Finset.sdiff_empty]
    exact Nat.lt_succ_self _
  rcases Option.isSome_iff_exists.mp hsome with ⟨p, hp⟩
  rw [collect_vmt_and_vtf_ord]
  simp only [← htv]
  rw [hp]
  rfl

/-- Membership characterization of both result sets of
collect_vmt_and_vtf_ord for any linearization that preserves the
underlying set of start materials. -/
theorem collect_vmt_and_vtf_ord_spec (fs : FileIndex) (ord : List String → List String)
    (hord : ∀ l : List String, (ord l).toFinset = l.toFinset) (start_vmts : List String) :
    (∀ y, y ∈ (collect_vmt_and_vtf_ord fs ord start_vmts).1 ↔
      ReachVmt fs ∅ (start_vmts.map sLower).toFinset y) ∧
    (∀ w, w ∈ (collect_vmt_and_vtf_ord fs ord start_vmts).2 ↔
      ∃ y, ReachVmt fs ∅ (start_vmts.map sLower).toFinset y ∧ w ∈ vmtTextures fs y) := by
  have heq := collect_vmt_and_vtf_ord_eq fs ord start_vmts
  set p := collect_vmt_and_vtf_ord fs ord start_vmts with hp
  have heq' : collectLoopF fs (collectFuel fs ((ord ((start_vmts.map sLower).dedup)).reverse))
      ((ord ((start_vmts.map sLower).dedup)).reverse) ∅ ∅ = some (p.1, p.2) := by
    rw [heq]
  have hspec := collectLoopF_spec fs _ _ _ _ p.1 p.2 heq'
  have hfin : ((ord ((start_vmts.map sLower).dedup)).reverse).toFinset
      = (start_vmts.map sLower).toFinset := by
    rw [List.toFinset_reverse, hord, dedup_toFinset]
  obtain ⟨hs, hv⟩ := hspec
  constructor
  · intro y
    rw [hs y, hfin]
    simp
  · intro w
    rw [hv w, hfin]
    simp

-- -------------------- Selection-parsing support lemmas -----------------------------

/-- Invariant of the selection accumulator: ordered list is
duplicate-free, in range, and the seen set mirrors it. -/
def InvSel (n : Nat) (st : Finset Nat × List Nat) : Prop :=
  st.2.Nodup ∧ (∀ i ∈ st.2, 1 ≤ i ∧ i ≤ n) ∧ st.1 = st.2.toFinset

theorem addIdx_inv {n : Nat} {st : Finset Nat × List Nat} (h : InvSel n st) (i : Nat) :
    InvSel n (addIdx n st i) := by
  obtain ⟨hnd, hbd, hsync⟩ := h
  unfold addIdx
  split
  · rename_i hc
    obtain ⟨h1, h2, h3⟩ := hc
    have hil : i ∉ st.2 := fun hm => h3 (hsync ▸ List.mem_toFinset.mpr hm)
    refine ⟨?_, ?_, ?_⟩
    · rw [List.nodup_append]
      exact ⟨hnd, List.nodup_singleton i, fun a ha hb => by
        rw [List.mem_singleton] at hb
        subst hb
        exact hil ha⟩
    · intro j hj
      rcases List.mem_append.mp hj with hj | hj
      · exact hbd j hj
      · rw [List.mem_singleton] at hj
        subst hj
        exact ⟨h1, h2⟩
    · rw [List.toFinset_append, hsync]
      ext z
      simp [or_comm]
  · exact ⟨hnd, hbd, hsync⟩

theorem foldl_addIdx_inv {n : Nat} :
    ∀ (l : List Nat) (st : Finset Nat × List Nat), InvSel n st →
      InvSel n (l.foldl (addIdx n) st)
  | [], _, h => h
  | _ :: t, _, h => foldl_addIdx_inv t _ (addIdx_inv h _)

theorem selTokenStep_inv {n : Nat} {st st' : Finset Nat × List Nat} {t : List Char}
    (h : selTokenStep n st t = .ok st') (hinv : InvSel n st) : InvSel n st' := by
  simp only [selTokenStep] at h
  split at h
  · split at h
    · exact absurd h (by simp)
    · injection h with h'
      subst h'
      exact foldl_addIdx_inv _ _ hinv
  · split at h
    · exact absurd h (by simp)
    · injection h with h'
      subst h'
      exact addIdx_inv hinv _

theorem foldlM_selTokenStep_inv {n : Nat} :
    ∀ (ts : List (List Char)) (st st' : Finset Nat × List Nat),
      List.foldlM (selTokenStep n) st ts = .ok st' → InvSel n st → InvSel n st' := by
  intro ts
  induction ts with
  | nil =>
    intro st st' h hinv
    simp only [List.foldlM_nil] at h
    injection h with h'
    subst h'
    exact hinv
  | cons t ts ih =>
    intro st st' h hinv
    rw [List.foldlM_cons] at h
    rcases hstep : selTokenStep n st t with msg | st1
    · rw [hstep] at h
      have hred : ((Except.error msg : Except String (Finset Nat × List Nat)) >>=
          fun st1 => List.foldlM (selTokenStep n) st1 ts) = Except.error msg := rfl
      rw [hred] at h
      exact Except.noConfusion h
    · rw [hstep] at h
      have hred : ((Except.ok st1 : Except String (Finset Nat × List Nat)) >>=
          fun st1 => List.foldlM (selTokenStep n) st1 ts)
          = List.foldlM (selTokenStep n) st1 ts := rfl
      rw [hred] at h
      exact ih st1 st' h (selTokenStep_inv hstep hinv)

-- -------------------- Export-numbering support lemmas ------------------------------

theorem foldl_exported_init_le :
    ∀ (dirs : List String) (m : Nat),
      m ≤ dirs.foldl (fun max_n name =>
        match matchExported name with
        | some n => max max_n n
        | none => max_n) m := by
  intro dirs
  induction dirs with
  | nil => intro m; exact Nat.le_refl m
  | cons a t ih =>
    intro m
    rw [List.foldl_cons]
    rcases hma : matchExported a with _ | k
    · simp only [hma]
      exact ih m
    · simp only [hma]
      exact Nat.le_trans (Nat.le_max_left m k) (ih (max m k))

theorem foldl_exported_of_mem :
    ∀ (dirs : List String) (m : Nat) (name : String), name ∈ dirs →
      ∀ k, matchExported name = some k →
        k ≤ dirs.foldl (fun max_n name =>
          match matchExported name with
          | some n => max max_n n
          | none => max_n) m := by
  intro dirs
  induction dirs with
  | nil => intro m name h; cases h
  | cons a t ih =>
    intro m name h k hk
    rcases List.mem_cons.mp h with rfl | hmem
    · rw [List.foldl_cons]
      simp only [hk]
      exact Nat.le_trans (Nat.le_max_right m k) (foldl_exported_init_le t _)
    · rw [List.foldl_cons]
      exact ih _ name hmem k hk

theorem foldl_exported_cases :
    ∀ (dirs : List String) (m : Nat),
      dirs.foldl (fun max_n name =>
        match matchExported name with
        | some n => max max_n n
        | none => max_n) m = m ∨
      ∃ name ∈ dirs, matchExported name
        = some (dirs.foldl (fun max_n name =>
            match matchExported name with
            | some n => max max_n n
            | none => max_n) m) := by
  intro dirs
  induction dirs with
  | nil => intro m; exact Or.inl rfl
  | cons a t ih =>
    intro m
    rcases hma : matchExported a with _ | k
    · rcases ih m with h | ⟨name, hmem, hname⟩
      · refine Or.inl ?_
        simpa only [List.foldl_cons, hma] using h
      · refine Or.inr ⟨name, List.mem_cons_of_mem _ hmem, ?_⟩
        simpa only [List.foldl_cons, hma] using hname
    · rcases ih (max m k) with h | ⟨name, hmem, hname⟩
      · rcases Nat.le_total k m with hkm | hmk
        · refine Or.inl ?_
          simp only [List.foldl_cons, hma]
          rw [h, Nat.max_eq_left hkm]
        · refine Or.inr ⟨a, List.mem_cons_self a t, ?_⟩
          simp only [List.foldl_cons, hma]
          rw [h, Nat.max_eq_right hmk]
      · refine Or.inr ⟨name, List.mem_cons_of_mem _ hmem, ?_⟩
        simpa only [List.foldl_cons, hma] using hname

-- ==================== Claim theorems ====================

/-- C9: besides the literal "all", the selection expression "*" (after
trimming and lower-casing) is accepted as select-all: for every
max_index n, parse_selection "*" n returns the full range [1..n]. -/
theorem C9_star_selects_all (n : Nat) : parse_selection "*" n = .ok (List.range' 1 n) := rfl

/-- C9 witness at n = 3. -/
theorem C9_star_selects_all_witness : parse_selection "*" 3 = .ok (List.range' 1 3) :=
  C9_star_selects_all 3

/-- C2: parse_selection evaluates the expression left-to-right into
1-based indices, duplicates suppressed and first-occurrence order
preserved (the result is duplicate-free), reversed range bounds are
swapped, out-of-range indices are silently dropped (every returned index
lies in [1, max_index]); "1,5-7,12" against 10 gives [1,5,6,7], "all"
gives the full range, and "abc" raises a ValueError. -/
theorem C2_parse_selection_spec :
    parse_selection "1,5-7,12" 10 = .ok [1, 5, 6, 7] ∧
    (∀ n, parse_selection "all" n = .ok (List.range' 1 n)) ∧
    (∀ n, parse_selection "abc" n = .error "Bad index token: abc") ∧
    (∀ m st s0 e0, applyRange m st s0 e0 = applyRange m st e0 s0) ∧
    (∀ spec n l, parse_selection spec n = .ok l →
      l.Nodup ∧ ∀ i ∈ l, 1 ≤ i ∧ i ≤ n) := by
  refine ⟨rfl, fun n => rfl, fun n => rfl, ?_, ?_⟩
  · intro m st s0 e0
    by_cases h1 : s0 > e0
    · have h2 : ¬ e0 > s0 := by omega
      simp only [applyRange, if_pos h1, if_neg h2]
    · by_cases h2 : e0 > s0
      · simp only [applyRange, if_neg h1, if_pos h2]
      · have he : s0 = e0 := by omega
        subst he
        rfl
  · intro spec n l h
    simp only [parse_selection] at h
    split at h
    · injection h with h'
      subst h'
      constructor
      · exact List.nodup_range' 1 n
      · intro i hi
        rw [List.mem_range'_1] at hi
        omega
    · rcases hfold : List.foldlM (selTokenStep n) (∅, []) (selTokens (sLower (sStrip spec)))
          with msg | st
      · rw [hfold] at h
        exact absurd h (by simp [Except.map])
      · rw [hfold] at h
        have hl : l = st.2 := by
          simp only [Except.map] at h
          injection h with h'
          exact h'.symm
        subst hl
        have hinv := foldlM_selTokenStep_inv _ _ _ hfold
          ⟨List.nodup_nil, by simp, by simp⟩
        exact ⟨hinv.1, hinv.2.1⟩

/-- C2 witness: the invariant conjunct applied at the concrete parse of
"2" against max_index 3. -/
theorem C2_parse_selection_witness : [2].Nodup ∧ ∀ i ∈ [2], 1 ≤ i ∧ i ≤ 3 :=
  C2_parse_selection_spec.2.2.2.2 "2" 3 [2] rfl

/-- C7: next_export_number returns one more than the largest existing
EXPORTED number (1 when none exist): every matched number is strictly
below it, and unless it is 1 some directory carries exactly one less;
with EXPORTED1 and EXPORTED3 present the next created unit is EXPORTED4. -/
theorem C7_next_export_number_spec :
    (∀ dirs (name : String), name ∈ dirs → ∀ k, matchExported name = some k →
      k < next_export_number dirs) ∧
    (∀ dirs, next_export_number dirs = 1 ∨
      ∃ name ∈ dirs, matchExported name = some (next_export_number dirs - 1)) ∧
    next_export_number ["EXPORTED1", "EXPORTED3"] = 4 ∧
    export_name (next_export_number ["EXPORTED1", "EXPORTED3"]) = "EXPORTED4" := by
  refine ⟨?_, ?_, rfl, rfl⟩
  · intro dirs name hmem k hk
    have := foldl_exported_of_mem dirs 0 name hmem k hk
    unfold next_export_number
    omega
  · intro dirs
    rcases foldl_exported_cases dirs 0 with h | ⟨name, hmem, hname⟩
    · exact Or.inl (by unfold next_export_number; omega)
    · refine Or.inr ⟨name, hmem, ?_⟩
      unfold next_export_number
      simpa using hname

/-- C7 witness: EXPORTED3's number is strictly below the next export
number computed from the pair of existing directories. -/
theorem C7_next_export_number_witness :
    3 < next_export_number ["EXPORTED1", "EXPORTED3"] :=
  C7_next_export_number_spec.1 ["EXPORTED1", "EXPORTED3"] "EXPORTED3" (by simp) 3 rfl

/-- C10: for a model whose relative path has no containing folder, the
folder/basename heuristic contributes nothing: the candidate material
list is exactly the (deduplicated) byte-scan candidates. -/
theorem C10_no_folder_heuristic (fs : FileIndex) (rel_mdl : String)
    (h : parentParts rel_mdl = []) :
    folderCandidates fs rel_mdl = [] ∧
    vmtCandidates fs rel_mdl = (scanCandidates fs rel_mdl).dedup := by
  have h1 : folderCandidates fs rel_mdl = [] := by
    rw [folderCandidates, if_pos h]
  exact ⟨h1, by rw [vmtCandidates, h1, List.append_nil]⟩

/-- C10 witness at a root-level model path. -/
theorem C10_no_folder_heuristic_witness :
    folderCandidates fsCyc "m.mdl" = [] ∧
    vmtCandidates fsCyc "m.mdl" = (scanCandidates fsCyc "m.mdl").dedup :=
  C10_no_folder_heuristic fsCyc "m.mdl" rfl

-- -------------------- String replace / prefix / suffix lemmas ----------------------

theorem isPrefixOf_append_self (p t : List Char) : p.isPrefixOf (p ++ t) = true :=
  List.isPrefixOf_iff_prefix.mpr (List.prefix_append p t)

theorem isPrefixOf_append_of (p a b : List Char) (h : p.isPrefixOf a = true) :
    p.isPrefixOf (a ++ b) = true :=
  List.isPrefixOf_iff_prefix.mpr
    ((List.isPrefixOf_iff_prefix.mp h).trans (List.prefix_append a b))

theorem isSuffixOf_append_self (s t : List Char) : s.isSuffixOf (t ++ s) = true := by
  rw [List.isSuffixOf, List.reverse_append]
  exact isPrefixOf_append_self s.reverse t.reverse

theorem isSuffixOf_append_of (s l pre : List Char) (h : s.isSuffixOf l = true) :
    s.isSuffixOf (pre ++ l) = true := by
  rw [List.isSuffixOf] at h ⊢
  rw [List.reverse_append]
  exact isPrefixOf_append_of _ _ _ h

theorem data_append (s t : String) : (s ++ t).data = s.data ++ t.data := rfl

theorem replaceAll_no_occur (pat rep : List Char) :
    ∀ (l : List Char) (fuel : Nat), containsSub l pat = false →
      replaceAllF pat rep fuel l = l := by
  intro l
  induction l with
  | nil => intro fuel _; cases fuel <;> rfl
  | cons c rest ih =>
    intro fuel h
    rw [containsSub, Bool.or_eq_false_iff] at h
    cases fuel with
    | zero => rfl
    | succ fuel =>
      rw [replaceAllF, if_neg (by simp [h.1])]
      rw [ih fuel h.2]

theorem replaceAll_prepend (pat rep xd : List Char) (fuel : Nat)
    (hne : pat ≠ []) (hno : containsSub xd pat = false) :
    replaceAllF pat rep (fuel + 1) (pat ++ xd) = rep ++ xd := by
  rcases pat with _ | ⟨p0, pat'⟩
  · exact absurd rfl hne
  · rw [List.cons_append, replaceAllF,
      if_pos (by
        rw [Bool.and_eq_true]
        refine ⟨?_, by simp⟩
        rw [← List.cons_append]
        exact isPrefixOf_append_self (p0 :: pat') xd),
      ← List.cons_append, List.drop_left]
    rw [replaceAll_no_occur _ _ _ _ hno]

-- -------------------- C6: double-prefix fallback ------------------------------------

/-- C6: a worklist material path "materials/materials/x" absent from the
index resolves, by the collapse fallback, to the file of "materials/x"
when that exists; its includes and textures are then those parsed from
that file, not the empty sets of a missing material. -/
theorem C6_double_prefix_fallback (fs : FileIndex) (x r : String)
    (h1 : fs.lc_map.lookup ("materials/materials/" ++ x) = none)
    (h2 : fs.lc_map.lookup ("materials/" ++ x) = some r)
    (h3 : sContains x "materials/materials/" = false) :
    resolveVmt fs ("materials/materials/" ++ x) = some r ∧
    ∀ text, fs.files.lookup r = some text →
      vmtIncludes fs ("materials/materials/" ++ x) = (parse_vmt_for_dependencies text).2 ∧
      vmtTextures fs ("materials/materials/" ++ x)
        = ((parse_vmt_for_dependencies text).1).map sLower := by
  have hcollapse : sReplace ("materials/materials/" ++ x) "materials/materials/" "materials/"
      = "materials/" ++ x := by
    cases x with
    | mk xd =>
      show (⟨replaceAllF "materials/materials/".data "materials/".data
        (("materials/materials/".data ++ xd).length)
        ("materials/materials/".data ++ xd)⟩ : String) = "materials/" ++ ⟨xd⟩
      have hlen : ("materials/materials/".data ++ xd).length = (19 + xd.length) + 1 := by
        rw [List.length_append]
        have h20 : "materials/materials/".data.length = 20 := rfl
        omega
      rw [hlen, replaceAll_prepend _ _ _ _ (by simp) h3]
      rfl
  have hres : resolveVmt fs ("materials/materials/" ++ x) = some r := by
    rw [resolveVmt, h1, hcollapse, h2]
  refine ⟨hres, fun text htext => ⟨?_, ?_⟩⟩
  · simp only [vmtIncludes, hres, htext]
  · simp only [vmtTextures, hres, htext]

/-- C6 witness: materials/materials/x.vmt falls back to materials/x.vmt
in the concrete index fsCollapse and is parsed there. -/
theorem C6_double_prefix_fallback_witness :
    resolveVmt fsCollapse ("materials/materials/" ++ "x.vmt") = some "materials/x.vmt" ∧
    ∀ text, fsCollapse.files.lookup "materials/x.vmt" = some text →
      vmtIncludes fsCollapse ("materials/materials/" ++ "x.vmt")
        = (parse_vmt_for_dependencies text).2 ∧
      vmtTextures fsCollapse ("materials/materials/" ++ "x.vmt")
        = ((parse_vmt_for_dependencies text).1).map sLower :=
  C6_double_prefix_fallback fsCollapse "x.vmt" "materials/x.vmt" rfl rfl rfl

-- -------------------- C4: key/value normalization ----------------------------------

theorem mem_addSet_self (l : List String) (a : String) : a ∈ addSet l a := by
  unfold addSet
  split
  · assumption
  · simp

theorem mem_addSet_of_mem {l : List String} {b : String} (h : b ∈ l) (a : String) :
    b ∈ addSet l a := by
  unfold addSet
  split
  · exact h
  · exact List.mem_append_left _ h

theorem pvStep_mono (acc : List String × List String) (kv : String × String) :
    (∀ a ∈ acc.1, a ∈ (pvStep acc kv).1) ∧ (∀ a ∈ acc.2, a ∈ (pvStep acc kv).2) := by
  simp only [pvStep]
  split
  · exact ⟨fun a ha => mem_addSet_of_mem ha _, fun a ha => ha⟩
  · split
    · exact ⟨fun a ha => ha, fun a ha => mem_addSet_of_mem ha _⟩
    · exact ⟨fun a ha => ha, fun a ha => ha⟩

theorem foldl_pvStep_mono :
    ∀ (pairs : List (String × String)) (acc : List String × List String),
      (∀ a ∈ acc.1, a ∈ (pairs.foldl pvStep acc).1) ∧
      (∀ a ∈ acc.2, a ∈ (pairs.foldl pvStep acc).2)
  | [], _ => ⟨fun _ ha => ha, fun _ ha => ha⟩
  | kv :: rest, acc => by
    rw [List.foldl_cons]
    have h1 := pvStep_mono acc kv
    have h2 := foldl_pvStep_mono rest (pvStep acc kv)
    exact ⟨fun a ha => h2.1 a (h1.1 a ha), fun a ha => h2.2 a (h1.2 a ha)⟩

theorem foldl_pvStep_mem :
    ∀ (pairs : List (String × String)) (acc : List String × List String)
      (k v : String), (k, v) ∈ pairs →
      (sLower k ∈ VMT_TEXTURE_KEYS → norm_to_materials v ".vtf" ∈ (pairs.foldl pvStep acc).1) ∧
      (sLower k ∈ VMT_INCLUDE_KEYS → norm_to_materials v ".vmt" ∈ (pairs.foldl pvStep acc).2) := by
  intro pairs
  induction pairs with
  | nil => intro acc k v h; cases h
  | cons kv rest ih =>
    intro acc k v h
    rcases List.mem_cons.mp h with rfl | hmem
    · rw [List.foldl_cons]
      constructor
      · intro hkey
        refine (foldl_pvStep_mono rest _).1 _ ?_
        simp only [pvStep, if_pos hkey]
        exact mem_addSet_self _ _
      · intro hkey
        have hinc : sLower k = "include" := by
          simpa [VMT_INCLUDE_KEYS] using hkey
        have hnotex : sLower k ∉ VMT_TEXTURE_KEYS := by
          rw [hinc]
          decide
        refine (foldl_pvStep_mono rest _).2 _ ?_
        simp only [pvStep, if_neg hnotex, if_pos hkey]
        exact mem_addSet_self _ _
    · rw [List.foldl_cons]
      exact ih (pvStep acc kv) k v hmem

theorem norm_final_starts (q : String) :
    sStartsWith (if sStartsWith q "materials/" then q else "materials/" ++ q)
      "materials/" = true := by
  split
  · assumption
  · rw [sStartsWith, data_append]
    exact isPrefixOf_append_self _ _

theorem norm_final_suffix (q ext : String) (h : sEndsWith q ext = true) :
    sEndsWith (if sStartsWith q "materials/" then q else "materials/" ++ q) ext = true := by
  split
  · exact h
  · rw [sEndsWith, data_append]
    rw [sEndsWith] at h
    exact isSuffixOf_append_of _ _ _ h

theorem norm_ext_suffix (w ext : String) :
    sEndsWith (if sEndsWith w ext then w else w ++ ext) ext = true := by
  split
  · assumption
  · rw [sEndsWith, data_append]
    exact isSuffixOf_append_self _ _

theorem norm_ext_starts (w ext : String) (h : sStartsWith w "materials/" = true) :
    sStartsWith (if sEndsWith w ext then w else w ++ ext) "materials/" = true := by
  split
  · exact h
  · rw [sStartsWith, data_append]
    rw [sStartsWith] at h
    exact isPrefixOf_append_of _ _ _ h

/-- C4: every extracted pair whose key is (case-insensitively) a known
texture key contributes its value normalized with the ".vtf" extension,
and the include key contributes a ".vmt"-normalized value; the
normalization lower-cases, converts backslashes, always yields a path
carrying the extension and the "materials/" namespace, and never doubles
an existing textual "materials/" prefix. -/
theorem C4_key_normalization :
    (∀ text k v, (k, v) ∈ parse_vmt_pairs text →
      (sLower k ∈ VMT_TEXTURE_KEYS →
        norm_to_materials v ".vtf" ∈ (parse_vmt_for_dependencies text).1) ∧
      (sLower k ∈ VMT_INCLUDE_KEYS →
        norm_to_materials v ".vmt" ∈ (parse_vmt_for_dependencies text).2)) ∧
    (∀ v ext, sStartsWith (norm_to_materials v ext) "materials/" = true) ∧
    (∀ v ext, sEndsWith (norm_to_materials v ext) ext = true) ∧
    (∀ v ext, sStartsWith (sLower (sStrip (sReplace v "\\" "/"))) "materials/" = true →
      norm_to_materials v ext =
        (if sEndsWith (sLower (sStrip (sReplace v "\\" "/"))) ext
         then sLower (sStrip (sReplace v "\\" "/"))
         else sLower (sStrip (sReplace v "\\" "/")) ++ ext)) := by
  refine ⟨?_, ?_, ?_, ?_⟩
  · intro text k v h
    exact foldl_pvStep_mem (parse_vmt_pairs text) ([], []) k v h
  · intro v ext
    rw [norm_to_materials]
    exact norm_final_starts _
  · intro v ext
    rw [norm_to_materials]
    exact norm_final_suffix _ ext (norm_ext_suffix _ ext)
  · intro v ext h
    rw [norm_to_materials, if_pos (norm_ext_starts _ ext h)]

/-- C4 witness: a concrete basetexture pair is normalized into the
texture set. -/
theorem C4_key_normalization_witness :
    norm_to_materials "wood" ".vtf"
      ∈ (parse_vmt_for_dependencies "\"$basetexture\" \"wood\"").1 :=
  (C4_key_normalization.1 "\"$basetexture\" \"wood\"" "basetexture" "wood"
    (by decide)).1 (by decide)

-- -------------------- C3: termination and cycle safety -----------------------------

/-- C3: for every file index (hence every include graph, cyclic ones
included) and every starting material set, the traversal loop finishes
within its computed fuel, and the visited set is exactly the reachable
materials while the texture set is exactly the textures of reachable
materials (each collected once: the results are sets); on the concrete
cyclic pack fsCyc (a includes b, b includes a) both textures appear. -/
theorem C3_traversal_cycle_safe :
    (∀ (fs : FileIndex) (start_vmts : List String),
      ∃ s v, collectLoopF fs (collectFuel fs (((start_vmts.map sLower).dedup).reverse))
          (((start_vmts.map sLower).dedup).reverse) ∅ ∅ = some (s, v) ∧
        collect_vmt_and_vtf fs start_vmts = (s, v) ∧
        (∀ y, y ∈ s ↔ ReachVmt fs ∅ (start_vmts.map sLower).toFinset y) ∧
        (∀ w, w ∈ v ↔ ∃ y, ReachVmt fs ∅ (start_vmts.map sLower).toFinset y ∧
          w ∈ vmtTextures fs y)) ∧
    collect_vmt_and_vtf fsCyc ["materials/a.vmt"]
      = ({"materials/b.vmt", "materials/a.vmt"}, {"materials/ta.vtf", "materials/tb.vtf"}) := by
  constructor
  · intro fs start_vmts
    have heq := collect_vmt_and_vtf_ord_eq fs id start_vmts
    have hspec := collect_vmt_and_vtf_ord_spec fs id (fun _ => rfl) start_vmts
    exact ⟨(collect_vmt_and_vtf fs start_vmts).1, (collect_vmt_and_vtf fs start_vmts).2,
      heq, rfl, hspec.1, hspec.2⟩
  · decide

/-- C3 witness: the characterization applied to the concrete cyclic
index, showing termination of the loop there. -/
theorem C3_traversal_cycle_safe_witness :
    ∃ s v, collectLoopF fsCyc
        (collectFuel fsCyc (((["materials/a.vmt"].map sLower).dedup).reverse))
        (((["materials/a.vmt"].map sLower).dedup).reverse) ∅ ∅ = some (s, v) ∧
      collect_vmt_and_vtf fsCyc ["materials/a.vmt"] = (s, v) ∧
      (∀ y, y ∈ s ↔ ReachVmt fsCyc ∅ (["materials/a.vmt"].map sLower).toFinset y) ∧
      (∀ w, w ∈ v ↔ ∃ y, ReachVmt fsCyc ∅ (["materials/a.vmt"].map sLower).toFinset y ∧
        w ∈ vmtTextures fsCyc y) :=
  C3_traversal_cycle_safe.1 fsCyc ["materials/a.vmt"]

-- -------------------- C8: determinism of resolution --------------------------------

/-- C8: gather_deps_for_model is deterministic for a fixed file index:
any two linearizations of the worklist (Python's unspecified set
iteration order) produce equal sidecar, material and texture sets. -/
theorem C8_gather_deterministic (fs : FileIndex) (rel_mdl : String)
    (ord₁ ord₂ : List String → List String)
    (h₁ : ∀ l : List String, (ord₁ l).toFinset = l.toFinset)
    (h₂ : ∀ l : List String, (ord₂ l).toFinset = l.toFinset) :
    gather_deps_ord fs ord₁ rel_mdl = gather_deps_ord fs ord₂ rel_mdl := by
  have hs₁ := collect_vmt_and_vtf_ord_spec fs ord₁ h₁ (existingVmts fs rel_mdl)
  have hs₂ := collect_vmt_and_vtf_ord_spec fs ord₂ h₂ (existingVmts fs rel_mdl)
  have e1 : (collect_vmt_and_vtf_ord fs ord₁ (existingVmts fs rel_mdl)).1
      = (collect_vmt_and_vtf_ord fs ord₂ (existingVmts fs rel_mdl)).1 :=
    Finset.ext (fun y => (hs₁.1 y).trans (hs₂.1 y).symm)
  have e2 : (collect_vmt_and_vtf_ord fs ord₁ (existingVmts fs rel_mdl)).2
      = (collect_vmt_and_vtf_ord fs ord₂ (existingVmts fs rel_mdl)).2 :=
    Finset.ext (fun w => (hs₁.2 w).trans (hs₂.2 w).symm)
  simp only [gather_deps_ord]
  rw [e1, e2]

/-- C8 witness: the canonical order and the reversed order agree on the
concrete cyclic pack. -/
theorem C8_gather_deterministic_witness :
    gather_deps_ord fsCyc id "models/m.mdl"
      = gather_deps_ord fsCyc List.reverse "models/m.mdl" :=
  C8_gather_deterministic fsCyc "models/m.mdl" id List.reverse
    (fun _ => rfl) (fun _ => List.toFinset_reverse)

-- -------------------- C1: what the returned sets contain ---------------------------

theorem lookup_isSome_of_mem {l : List (String × String)} {k v : String}
    (h : (k, v) ∈ l) : (l.lookup k).isSome = true := by
  induction l with
  | nil => cases h
  | cons p rest ih =>
    cases p with
    | mk a b =>
      simp only [List.lookup]
      split
      · rfl
      · rename_i hne
        rcases List.mem_cons.mp h with heq | hmem
        · injection heq with h1 h2
          subst h1
          simp at hne
        · exact ih hmem

theorem lookup_mem_pairs {l : List (String × String)} {k v : String}
    (h : l.lookup k = some v) : (k, v) ∈ l := by
  induction l with
  | nil => simp [List.lookup] at h
  | cons p rest ih =>
    cases p with
    | mk a b =>
      simp only [List.lookup] at h
      split at h
      · rename_i hab
        injection h with h'
        subst h'
        have hak : k = a := by simpa using hab
        subst hak
        exact List.mem_cons_self _ _
      · exact List.mem_cons_of_mem _ (ih h)

theorem mem_foldl_mfStep (fs : FileIndex) :
    ∀ (cands : List String) (acc : Finset String) (p : String),
      p ∈ cands.foldl (mfStep fs) acc →
      p ∈ acc ∨ ∃ key, fs.lc_map.lookup key = some p := by
  intro cands
  induction cands with
  | nil => intro acc p h; exact Or.inl h
  | cons c rest ih =>
    intro acc p h
    rw [List.foldl_cons] at h
    rcases ih (mfStep fs acc c) p h with hm | hex
    · rw [mfStep] at hm
      split at hm
      · rename_i v hv
        rcases Finset.mem_insert.mp hm with rfl | hacc
        · exact Or.inr ⟨_, hv⟩
        · exact Or.inl hacc
      · exact Or.inl hm
    · exact Or.inr hex

/-- C1 counterexample: in fsMissing the resolver's returned material set
contains materials/nothere.vmt and its texture set materials/missing.vtf,
neither of which has a lower-cased form present in the index map — the
claim "only existing paths are returned, the rest are dropped" fails. -/
theorem C1_counterexample :
    ¬ ((∀ p ∈ (gather_deps_for_model fsMissing "models/m.mdl").2.1,
          (fsMissing.lc_map.lookup (sLower p)).isSome = true) ∧
       (∀ p ∈ (gather_deps_for_model fsMissing "models/m.mdl").2.2,
          (fsMissing.lc_map.lookup (sLower p)).isSome = true)) := by
  decide

/-- C1 amended: existence filtering applies to the sidecar set and to
the initial material candidates (both consist of index entries), while
the returned material set is exactly the set of visited lower-cased
material paths — every include reachable from the existing start
candidates, present in the index or not — and the returned texture set
is exactly the set of textures referenced by reachable materials,
present in the index or not. -/
theorem C1_amended_returned_sets (fs : FileIndex) (rel_mdl : String)
    (hwf : ∀ e ∈ fs.lc_map, e.1 = sLower e.2) :
    (∀ p ∈ (gather_deps_for_model fs rel_mdl).1,
      (fs.lc_map.lookup (sLower p)).isSome = true) ∧
    (∀ p ∈ existingVmts fs rel_mdl, (fs.lc_map.lookup (sLower p)).isSome = true) ∧
    (∀ y, y ∈ (gather_deps_for_model fs rel_mdl).2.1 ↔
      ReachVmt fs ∅ ((existingVmts fs rel_mdl).map sLower).toFinset y) ∧
    (∀ w, w ∈ (gather_deps_for_model fs rel_mdl).2.2 ↔
      ∃ y, ReachVmt fs ∅ ((existingVmts fs rel_mdl).map sLower).toFinset y ∧
        w ∈ vmtTextures fs y) := by
  have hspec := collect_vmt_and_vtf_ord_spec fs id (fun _ => rfl) (existingVmts fs rel_mdl)
  refine ⟨?_, ?_, hspec.1, hspec.2⟩
  · intro p hp
    rcases mem_foldl_mfStep fs _ _ p hp with hm | ⟨key, hkey⟩
    · exact absurd hm (Finset.not_mem_empty p)
    · have hpair := lookup_mem_pairs hkey
      have hk := hwf _ hpair
      have : (key, p).1 = sLower p := hk
      rw [← this]
      exact lookup_isSome_of_mem hpair
  · intro p hp
    rw [existingVmts, List.mem_dedup, List.mem_filterMap] at hp
    rcases hp with ⟨v, _, hv⟩
    have hpair := lookup_mem_pairs hv
    have hk := hwf _ hpair
    have : (sLower v, p).1 = sLower p := hk
    rw [← this]
    exact lookup_isSome_of_mem hpair

/-- C1 amended witness at the concrete pack fsMissing. -/
theorem C1_amended_returned_sets_witness :
    (∀ p ∈ (gather_deps_for_model fsMissing "models/m.mdl").1,
      (fsMissing.lc_map.lookup (sLower p)).isSome = true) ∧
    (∀ p ∈ existingVmts fsMissing "models/m.mdl",
      (fsMissing.lc_map.lookup (sLower p)).isSome = true) ∧
    (∀ y, y ∈ (gather_deps_for_model fsMissing "models/m.mdl").2.1 ↔
      ReachVmt fsMissing ∅ ((existingVmts fsMissing "models/m.mdl").map sLower).toFinset y) ∧
    (∀ w, w ∈ (gather_deps_for_model fsMissing "models/m.mdl").2.2 ↔
      ∃ y, ReachVmt fsMissing ∅
          ((existingVmts fsMissing "models/m.mdl").map sLower).toFinset y ∧
        w ∈ vmtTextures fsMissing y) :=
  C1_amended_returned_sets fsMissing "models/m.mdl" (by decide)

-- -------------------- C5: tokenizer characterization -------------------------------

theorem runsAux_ne_nil_eq (p : Char → Bool) :
    ∀ (l cur : List Char), cur ≠ [] →
      runsAux p cur l = (cur.reverse ++ l.takeWhile p) :: splitRuns p (l.dropWhile p) := by
  intro l
  induction l with
  | nil =>
    intro cur hcur
    rw [runsAux, if_neg (by simpa [List.isEmpty_iff] using hcur)]
    rw [List.takeWhile_nil, List.dropWhile_nil, List.append_nil]
    rfl
  | cons c l ih =>
    intro cur hcur
    cases hc : p c with
    | true =>
      rw [runsAux, if_pos hc, ih (c :: cur) (by simp),
        List.takeWhile_cons, if_pos hc, List.dropWhile_cons, if_pos hc,
        List.reverse_cons, List.append_assoc, List.singleton_append]
    | false =>
      rw [runsAux, if_neg (by simp [hc]), if_neg (by simpa [List.isEmpty_iff] using hcur)]
      rw [List.takeWhile_cons, if_neg (by simp [hc]), List.dropWhile_cons,
        if_neg (by simp [hc]), List.append_nil]
      have hsplit : splitRuns p (c :: l) = runsAux p [] l := by
        rw [splitRuns, runsAux, if_neg (by simp [hc]), if_pos List.isEmpty_nil]
      rw [← hsplit]

theorem splitRuns_cons_pos (p : Char → Bool) {c : Char} (l : List Char) (hc : p c = true) :
    splitRuns p (c :: l) = (c :: l.takeWhile p) :: splitRuns p (l.dropWhile p) := by
  rw [splitRuns, runsAux, if_pos hc, runsAux_ne_nil_eq p l [c] (by simp)]
  rfl

theorem splitRuns_cons_neg (p : Char → Bool) {c : Char} (l : List Char) (hc : p c = false) :
    splitRuns p (c :: l) = splitRuns p l := by
  rw [splitRuns, runsAux, if_neg (by simp [hc]), if_pos List.isEmpty_nil]
  rfl

theorem head?_dropWhile_false (p : Char → Bool) :
    ∀ (l : List Char) (d : Char), (l.dropWhile p).head? = some d → p d = false := by
  intro l
  induction l with
  | nil => intro d h; cases h
  | cons c l ih =>
    intro d h
    rw [List.dropWhile_cons] at h
    by_cases hc : p c = true
    · rw [if_pos hc] at h
      exact ih d h
    · rw [if_neg hc] at h
      injection h with h'
      subst h'
      exact Bool.eq_false_iff.mpr hc

theorem getLast?_append_right :
    ∀ (a b : List Char), b ≠ [] → (a ++ b).getLast? = b.getLast? := by
  intro a b hb
  rw [← List.head?_reverse, ← List.head?_reverse, List.reverse_append]
  rcases hbr : b.reverse with _ | ⟨x, xs⟩
  · exact absurd (by simpa using congrArg List.reverse hbr) hb
  · rfl

theorem getLast?_cons_ne (c : Char) (a : List Char) (ha : a ≠ []) :
    (c :: a).getLast? = a.getLast? := by
  rw [← List.singleton_append]
  exact getLast?_append_right [c] a ha

theorem dropWhile_append_false (p : Char → Bool) :
    ∀ (a b : List Char), (∃ x ∈ a, p x = false) →
      (a ++ b).dropWhile p = a.dropWhile p ++ b := by
  intro a
  induction a with
  | nil => intro b h; simp at h
  | cons c a ih =>
    intro b h
    rw [List.cons_append, List.dropWhile_cons, List.dropWhile_cons]
    by_cases hc : p c = true
    · rw [if_pos hc, if_pos hc]
      refine ih b ?_
      rcases h with ⟨x, hx, hpx⟩
      rcases List.mem_cons.mp hx with rfl | hxm
      · exact absurd hc (by simp [hpx])
      · exact ⟨x, hxm, hpx⟩
    · rw [if_neg hc, if_neg hc]
      rfl

theorem dropWhile_ne_nil_of_false (p : Char → Bool) :
    ∀ (a : List Char), (∃ x ∈ a, p x = false) → a.dropWhile p ≠ [] := by
  intro a
  induction a with
  | nil => intro h; simp at h
  | cons c a ih =>
    intro h
    rw [List.dropWhile_cons]
    by_cases hc : p c = true
    · rw [if_pos hc]
      refine ih ?_
      rcases h with ⟨x, hx, hpx⟩
      rcases List.mem_cons.mp hx with rfl | hxm
      · exact absurd hc (by simp [hpx])
      · exact ⟨x, hxm, hpx⟩
    · rw [if_neg hc]
      simp

theorem getLast?_dropWhile_eq (p : Char → Bool) :
    ∀ (a : List Char), a.dropWhile p ≠ [] → (a.dropWhile p).getLast? = a.getLast? := by
  intro a
  induction a with
  | nil => intro h; simp at h
  | cons c a ih =>
    intro h
    rw [List.dropWhile_cons] at h ⊢
    by_cases hc : p c = true
    · rw [if_pos hc] at h ⊢
      have ha : a ≠ [] := by
        intro hnil
        subst hnil
        simp at h
      rw [ih h]
      exact (getLast?_append_right [c] a ha).symm
    · rw [if_neg hc]

theorem takeWhile_dropWhile_append (p : Char → Bool) :
    ∀ (a b : List Char), (∀ x ∈ a, p x = true) →
      (∀ d, b.head? = some d → p d = false) →
      (a ++ b).takeWhile p = a ∧ (a ++ b).dropWhile p = b := by
  intro a
  induction a with
  | nil =>
    intro b _ hb
    rcases b with _ | ⟨d, b'⟩
    · exact ⟨rfl, rfl⟩
    · have hd : p d = false := hb d rfl
      rw [List.nil_append, List.takeWhile_cons, List.dropWhile_cons,
        if_neg (by simp [hd]), if_neg (by simp [hd])]
      exact ⟨rfl, rfl⟩
  | cons c a ih =>
    intro b ha hb
    have hc : p c = true := ha c (List.mem_cons_self c a)
    have hrest := ih b (fun x hx => ha x (List.mem_cons_of_mem _ hx)) hb
    rw [List.cons_append, List.takeWhile_cons, if_pos hc, List.dropWhile_cons, if_pos hc]
    exact ⟨by rw [hrest.1], hrest.2⟩

theorem length_dropWhile_le' (p : Char → Bool) :
    ∀ (l : List Char), (l.dropWhile p).length ≤ l.length := by
  intro l
  induction l with
  | nil => exact Nat.le_refl _
  | cons c l ih =>
    rw [List.dropWhile_cons]
    by_cases hc : p c = true
    · rw [if_pos hc]
      exact Nat.le_trans ih (by simp)
    · rw [if_neg hc]

/-- Membership in the maximal-run splitter: t occurs as a run iff the
input decomposes as pre ++ t ++ post with t a nonempty all-satisfying
block whose neighbours on both sides (when present) fail the predicate. -/
theorem mem_splitRuns_iff (p : Char → Bool) :
    ∀ (n : Nat) (l : List Char), l.length ≤ n → ∀ (t : List Char),
      (t ∈ splitRuns p l ↔
        ∃ pre post, l = pre ++ t ++ post ∧ t ≠ [] ∧ (∀ c ∈ t, p c = true) ∧
          (∀ d, pre.getLast? = some d → p d = false) ∧
          (∀ d, post.head? = some d → p d = false)) := by
  intro n
  induction n with
  | zero =>
    intro l hl t
    have hnil : l = [] := List.length_eq_zero.mp (Nat.le_zero.mp hl)
    subst hnil
    constructor
    · intro h
      exact absurd h (by rw [splitRuns, runsAux]; simp)
    · rintro ⟨pre, post, hdec, htne, -, -, -⟩
      rw [List.append_assoc] at hdec
      obtain ⟨-, h2⟩ := List.append_eq_nil.mp hdec.symm
      obtain ⟨h3, -⟩ := List.append_eq_nil.mp h2
      exact absurd h3 htne
  | succ n ih =>
    intro l hl t
    rcases l with _ | ⟨c, l'⟩
    · constructor
      · intro h
        exact absurd h (by rw [splitRuns, runsAux]; simp)
      · rintro ⟨pre, post, hdec, htne, -, -, -⟩
        rw [List.append_assoc] at hdec
        obtain ⟨-, h2⟩ := List.append_eq_nil.mp hdec.symm
        obtain ⟨h3, -⟩ := List.append_eq_nil.mp h2
        exact absurd h3 htne
    · have hl' : l'.length ≤ n := by
        rw [List.length_cons] at hl
        omega
      cases hc : p c with
      | false =>
        rw [splitRuns_cons_neg p l' hc]
        rw [ih l' hl' t]
        constructor
        · rintro ⟨pre, post, hdec, htne, htall, hpre, hpost⟩
          refine ⟨c :: pre, post, by simp [hdec], htne, htall, ?_, hpost⟩
          intro d hd
          rcases pre with _ | ⟨p0, pre'⟩
          · injection hd with hd'
            subst hd'
            exact hc
          · rw [getLast?_cons_ne c (p0 :: pre') (by simp)] at hd
            exact hpre d hd
        · rintro ⟨pre, post, hdec, htne, htall, hpre, hpost⟩
          rcases pre with _ | ⟨p0, pre'⟩
          · rcases t with _ | ⟨t0, trest⟩
            · exact absurd rfl htne
            · rw [List.nil_append, List.cons_append] at hdec
              injection hdec with hd1 _
              rw [hd1] at hc
              exact absurd (htall t0 (List.mem_cons_self _ _)) (by simp [hc])
          · rw [List.cons_append, List.cons_append] at hdec
            injection hdec with hd1 hd2
            refine ⟨pre', post, hd2, htne, htall, ?_, hpost⟩
            intro d hd
            rcases pre' with _ | ⟨q0, pre''⟩
            · cases hd
            · refine hpre d ?_
              rw [getLast?_cons_ne p0 (q0 :: pre'') (by simp)]
              exact hd
      | true =>
        rw [splitRuns_cons_pos p l' hc, List.mem_cons]
        constructor
        · rintro (rfl | hmem)
          · refine ⟨[], l'.dropWhile p, ?_, by simp, ?_, by simp, ?_⟩
            · rw [List.nil_append, List.cons_append]
              rw [List.takeWhile_append_dropWhile]
            · intro x hx
              rcases List.mem_cons.mp hx with rfl | hxm
              · exact hc
              · exact List.mem_takeWhile_imp hxm
            · exact head?_dropWhile_false p l'
          · have hdw : (l'.dropWhile p).length ≤ n :=
              Nat.le_trans (length_dropWhile_le' p l') hl'
            rcases (ih _ hdw t).mp hmem with ⟨pre'', post'', hdec, htne, htall, hpre, hpost⟩
            have hpne : pre'' ≠ [] := by
              intro hnil
              subst hnil
              rcases t with _ | ⟨t0, trest⟩
              · exact absurd rfl htne
              · rw [List.nil_append, List.cons_append] at hdec
                have := head?_dropWhile_false p l' t0 (by rw [hdec]; rfl)
                exact absurd (htall t0 (List.mem_cons_self _ _)) (by simp [this])
            refine ⟨c :: l'.takeWhile p ++ pre'', post'', ?_, htne, htall, ?_, hpost⟩
            · conv_lhs => rw [← List.takeWhile_append_dropWhile p l', hdec]
              simp [List.append_assoc]
            · intro d hd
              rw [getLast?_append_right (c :: l'.takeWhile p) pre'' hpne] at hd
              exact hpre d hd
        · rintro ⟨pre, post, hdec, htne, htall, hpre, hpost⟩
          rcases pre with _ | ⟨p0, pre'⟩
          · rcases t with _ | ⟨t0, trest⟩
            · exact absurd rfl htne
            · rw [List.nil_append, List.cons_append] at hdec
              injection hdec with hd1 hd2
              subst hd1
              have hta := takeWhile_dropWhile_append p trest post
                (fun x hx => htall x (List.mem_cons_of_mem _ hx)) hpost
              refine Or.inl ?_
              rw [hd2, hta.1]
          · rw [List.cons_append, List.cons_append] at hdec
            injection hdec with hd1 hd2
            subst hd1
            have hpne : pre' ≠ [] := by
              intro hnil
              subst hnil
              exact absurd hc (by simp [hpre c rfl])
            have hlast : ∃ x ∈ pre', p x = false := by
              rcases hgl : pre'.getLast? with _ | d
              · exact absurd hgl (by simp [List.getLast?_eq_none_iff, hpne])
              · refine ⟨d, List.mem_of_mem_getLast? hgl, hpre d ?_⟩
                rw [getLast?_cons_ne c pre' hpne]
                exact hgl
            refine Or.inr ?_
            have hdw : (l'.dropWhile p).length ≤ n :=
              Nat.le_trans (length_dropWhile_le' p l') hl'
            refine (ih _ hdw t).mpr ?_
            refine ⟨pre'.dropWhile p, post, ?_, htne, htall, ?_, hpost⟩
            · rw [hd2, List.append_assoc, dropWhile_append_false p pre' _ hlast,
                ← List.append_assoc]
            · intro d hd
              have hne := dropWhile_ne_nil_of_false p pre' hlast
              rw [getLast?_dropWhile_eq p pre' hne] at hd
              refine hpre d ?_
              rw [getLast?_cons_ne c pre' hpne]
              exact hd

theorem mem_addSet_iff (l : List String) (a q : String) : q ∈ addSet l a ↔ q = a ∨ q ∈ l := by
  unfold addSet
  split
  · rename_i h
    constructor
    · exact fun hq => Or.inr hq
    · rintro (rfl | hq)
      · exact h
      · exact hq
  · rw [List.mem_append, List.mem_singleton]
    exact Or.comm

theorem mem_foldl_scanStep :
    ∀ (toks : List (List Char)) (acc : List String) (q : String),
      q ∈ toks.foldl scanStep acc ↔ q ∈ acc ∨ ∃ t ∈ toks, candOf t = some q := by
  intro toks
  induction toks with
  | nil => intro acc q; simp
  | cons t toks ih =>
    intro acc q
    rw [List.foldl_cons, ih]
    rcases hct : candOf t with _ | p
    · constructor
      · rintro (hq | hex)
        · rw [scanStep, hct] at hq
          exact Or.inl hq
        · rcases hex with ⟨u, hu, hc⟩
          exact Or.inr ⟨u, List.mem_cons_of_mem _ hu, hc⟩
      · rintro (hq | ⟨u, hu, hc⟩)
        · refine Or.inl ?_
          rw [scanStep, hct]
          exact hq
        · rcases List.mem_cons.mp hu with rfl | hu'
          · rw [hct] at hc
            cases hc
          · exact Or.inr ⟨u, hu', hc⟩
    · constructor
      · rintro (hq | hex)
        · rw [scanStep, hct] at hq
          rcases (mem_addSet_iff acc p q).mp hq with rfl | hq'
          · exact Or.inr ⟨t, List.mem_cons_self _ _, hct⟩
          · exact Or.inl hq'
        · rcases hex with ⟨u, hu, hc⟩
          exact Or.inr ⟨u, List.mem_cons_of_mem _ hu, hc⟩
      · rintro (hq | ⟨u, hu, hc⟩)
        · refine Or.inl ?_
          rw [scanStep, hct]
          exact (mem_addSet_iff acc p q).mpr (Or.inr hq)
        · rcases List.mem_cons.mp hu with rfl | hu'
          · rw [hct] at hc
            injection hc with hc'
            refine Or.inl ?_
            rw [scanStep, hct, ← hc']
            exact mem_addSet_self acc p
          · exact Or.inr ⟨u, hu', hc⟩

/-- C5: the Model Scanner records exactly one candidate per maximal run
of 4 or more path-class characters, namely candOf of the run: a
backslash-normalized token without a path separator yields none, a
".vmt"-suffixed token is recorded as-is with the namespace prefixed when
absent, and a token mentioning models/ or materials/ is recorded with
any leading materials/ stripped, ".vmt" appended and materials/
prefixed; a path is in the result iff some maximal run produces it. -/
theorem C5_scan_characterization (mdl_bytes : List Char) (q : String) :
    q ∈ scan_mdl_for_material_candidates mdl_bytes ↔
      ∃ pre t post, mdl_bytes = pre ++ t ++ post ∧ 4 ≤ t.length ∧
        (∀ c ∈ t, isPathChar c = true) ∧
        (∀ d, pre.getLast? = some d → isPathChar d = false) ∧
        (∀ d, post.head? = some d → isPathChar d = false) ∧
        candOf t = some q := by
  rw [scan_mdl_for_material_candidates, mem_foldl_scanStep]
  simp only [List.not_mem_nil, false_or]
  constructor
  · rintro ⟨t, ht, hc⟩
    rw [pathTokens, List.mem_filter] at ht
    obtain ⟨hsp, hlen⟩ := ht
    have hlen' : 4 ≤ t.length := by simpa using hlen
    rcases (mem_splitRuns_iff isPathChar mdl_bytes.length mdl_bytes (Nat.le_refl _) t).mp hsp
      with ⟨pre, post, hdec, _, htall, hpre, hpost⟩
    exact ⟨pre, t, post, hdec, hlen', htall, hpre, hpost, hc⟩
  · rintro ⟨pre, t, post, hdec, hlen, htall, hpre, hpost, hc⟩
    refine ⟨t, ?_, hc⟩
    rw [pathTokens, List.mem_filter]
    have htne : t ≠ [] := by
      intro hnil
      subst hnil
      simp at hlen
    refine ⟨?_, by simpa using hlen⟩
    exact (mem_splitRuns_iff isPathChar mdl_bytes.length mdl_bytes (Nat.le_refl _) t).mpr
      ⟨pre, post, hdec, htne, htall, hpre, hpost⟩

/-- C5 witness: the characterization applied at a concrete byte string. -/
theorem C5_scan_characterization_witness :
    "materials/a.vmt" ∈ scan_mdl_for_material_candidates ("xx\x00materials/a.vmt\x01".data) ↔
      ∃ pre t post, ("xx\x00materials/a.vmt\x01".data) = pre ++ t ++ post ∧ 4 ≤ t.length ∧
        (∀ c ∈ t, isPathChar c = true) ∧
        (∀ d, pre.getLast? = some d → isPathChar d = false) ∧
        (∀ d, post.head? = some d → isPathChar d = false) ∧
        candOf t = some "materials/a.vmt" :=
  C5_scan_characterization ("xx\x00materials/a.vmt\x01".data) "materials/a.vmt"

end PropExtract
